import Mathlib

/-!
Verification development for the PACS reconciliation scripts
(`match_addresses.py` and `process_contact_import.py`).

The Python sources are shallowly embedded below: strings are Lean `String`s
(lists of characters), Python floats are modelled as rationals `ℚ`, `None`
is modelled with `Option`, and the fuzzy similarity primitive of the external
`rapidfuzz` library (`fuzz.token_set_ratio`, scaled to `[0,1]`) is modelled
concretely as `tokenSetScore` and abstractly as a `sim` parameter where the
surrounding logic does not depend on its internals.  Character classes
(`\s`, `[A-Za-z]`, `\d`, `\b`) are modelled on the ASCII range, which is the
range the scripts' regular expressions work with.
-/

namespace PACS

/-- ASCII whitespace, modelling Python's `\s` class and `str.strip`. -/
def isSpace (c : Char) : Bool :=
  c == ' ' || c == '\t' || c == '\n' || c == '\r' || c == '\x0b' || c == '\x0c'

/-- ASCII letter, modelling the regex class `[A-Za-z]`. -/
def isLetterB (c : Char) : Bool :=
  decide (65 ≤ c.toNat ∧ c.toNat ≤ 90) || decide (97 ≤ c.toNat ∧ c.toNat ≤ 122)

/-- ASCII digit, modelling the regex class `\d`. -/
def isDigitB (c : Char) : Bool :=
  decide (48 ≤ c.toNat ∧ c.toNat ≤ 57)

/-- Word character for `\b` boundaries: letters, digits and underscore. -/
def isWordChar (c : Char) : Bool :=
  isLetterB c || isDigitB c || c == '_'

/-- Drop leading whitespace (the left half of Python's `str.strip`). -/
def stripLead (l : List Char) : List Char :=
  l.dropWhile fun c => isSpace c

/-- Drop trailing whitespace (the right half of Python's `str.strip`). -/
def stripTrail : List Char → List Char
  | [] => []
  | c :: cs =>
    let t := stripTrail cs
    if t = [] ∧ isSpace c then [] else c :: t

/-- Python's `str.strip`: remove leading and trailing whitespace. -/
def strip (l : List Char) : List Char :=
  stripTrail (stripLead l)

/-- Model of `re.sub(r'\s+', ' ', _)`: every whitespace run becomes one space.
The flag records whether we are currently inside a whitespace run. -/
def collapseAux : Bool → List Char → List Char
  | _, [] => []
  | inRun, c :: cs =>
    if isSpace c then
      if inRun then collapseAux true cs else ' ' :: collapseAux true cs
    else
      c :: collapseAux false cs

/-- Whitespace-run collapsing, starting outside any run. -/
def collapse (l : List Char) : List Char :=
  collapseAux false l

/-- Split into maximal non-whitespace words (Python's `str.split()`), with the
accumulator holding the reversed current word. -/
def splitWsAux : List Char → List Char → List (List Char)
  | cur, [] => if cur = [] then [] else [cur.reverse]
  | cur, c :: cs =>
    if isSpace c then
      if cur = [] then splitWsAux [] cs else cur.reverse :: splitWsAux [] cs
    else
      splitWsAux (c :: cur) cs

/-- Whitespace-separated words of a character list. -/
def words (l : List Char) : List (List Char) :=
  splitWsAux [] l

/-- Join word lists with single spaces (`" ".join` in Python). -/
def joinWords : List (List Char) → List Char
  | [] => []
  | w :: ws => w ++ (match ws with | [] => [] | _ :: _ => ' ' :: joinWords ws)

/-- Remove one trailing comma if present (the `,?` part of the suffix regexes). -/
def dropTrailComma (l : List Char) : List Char :=
  if l.getLast? = some ',' then l.dropLast else l

/-- Decidable "`l` ends with `suf`" test. -/
def hasSuffix (suf l : List Char) : Prop :=
  l.drop (l.length - suf.length) = suf

instance (suf l : List Char) : Decidable (hasSuffix suf l) := by
  unfold hasSuffix; infer_instance

/-- Model of `re.sub(r',?\s*SUF$', '', l)` for a literal suffix `SUF`:
if the list ends with the suffix, remove it together with the directly
preceding whitespace run and one optional comma before that run.  On the
strings this substitution is applied to (already whitespace-collapsed, no
newlines) this is exactly the behaviour of the Python regex. -/
def stripEndSub (suf : List Char) (l : List Char) : List Char :=
  if hasSuffix suf l then
    dropTrailComma (stripTrail (l.take (l.length - suf.length)))
  else l

/-- Embedding of `normalize_address` (match_addresses.py lines 146-154) on a
non-null string: lowercase, strip, collapse whitespace, drop a trailing
"united states of america" and then a trailing "usa" (each with optional
preceding comma), and strip again. -/
def normalize_address_str (s : String) : String :=
  String.mk (strip (stripEndSub "usa".toList (stripEndSub "united states of america".toList
    (collapse (strip (s.toList.map Char.toLower))))))

/-- Embedding of `normalize_address` including the `pd.isna` null check:
a null input (`none`) normalizes to the empty string. -/
def normalize_address : Option String → String
  | none => ""
  | some s => normalize_address_str s

/-- Normalization as literally worded by the claim under scrutiny: same chain
but stripping a trailing "united states" (rather than
"united states of america") before the trailing "usa". -/
def normalize_claimed (s : String) : String :=
  String.mk (strip (stripEndSub "usa".toList (stripEndSub "united states".toList
    (collapse (strip (s.toList.map Char.toLower))))))

/-- Normalization as the amended claim words it, with the collapsing and the
boundary-whitespace removal expressed independently of the code: split the
lowercased text into whitespace-separated words and rejoin them with single
spaces, then remove the trailing "united states of america" / "usa" suffixes
and any whitespace this exposes at the ends. -/
def normalize_words_model (s : String) : String :=
  String.mk (strip (stripEndSub "usa".toList (stripEndSub "united states of america".toList
    (joinWords (words (s.toList.map Char.toLower))))))

/-- The 50 states, DC and 5 territories recognised by
`extract_state_from_address` (match_addresses.py lines 131-136). -/
def us_states : List String :=
  ["AL", "AK", "AZ", "AR", "CA", "CO", "CT", "DE", "FL", "GA",
   "HI", "ID", "IL", "IN", "IA", "KS", "KY", "LA", "ME", "MD",
   "MA", "MI", "MN", "MS", "MO", "MT", "NE", "NV", "NH", "NJ",
   "NM", "NY", "NC", "ND", "OH", "OK", "OR", "PA", "RI", "SC",
   "SD", "TN", "TX", "UT", "VT", "VA", "WA", "WV", "WI", "WY",
   "DC", "PR", "VI", "GU", "AS", "MP"]

/-- Check that a list starts with five ASCII digits (`\d{5}`). -/
def startsWith5Digits : List Char → Bool
  | d1 :: d2 :: d3 :: d4 :: d5 :: _ =>
    isDigitB d1 && isDigitB d2 && isDigitB d3 && isDigitB d4 && isDigitB d5
  | _ => false

/-- Check `\s+\d{5}`: at least one whitespace character, then five digits.
The whitespace run is forced to be maximal because digits are not whitespace. -/
def spacesThenZip (l : List Char) : Bool :=
  match l with
  | c :: _ => isSpace c && startsWith5Digits (l.dropWhile fun d => isSpace d)
  | [] => false

/-- Try the regex `,\s*([A-Za-z]{2})\s+\d{5}` anchored at the head of the
list, returning the captured two letters. -/
def matchP1At : List Char → Option (Char × Char)
  | ',' :: rest =>
    match rest.dropWhile fun d => isSpace d with
    | c1 :: c2 :: r2 =>
      if isLetterB c1 && isLetterB c2 && spacesThenZip r2 then some (c1, c2) else none
    | _ => none
  | _ => none

/-- Leftmost search for pattern 1 (`re.search` semantics). -/
def searchP1 : List Char → Option (Char × Char)
  | [] => none
  | c :: cs =>
    match matchP1At (c :: cs) with
    | some p => some p
    | none => searchP1 cs

/-- Try the regex `,\s*([A-Za-z]{2})\s*,` anchored at the head of the list. -/
def matchP2At : List Char → Option (Char × Char)
  | ',' :: rest =>
    match rest.dropWhile fun d => isSpace d with
    | c1 :: c2 :: r2 =>
      if isLetterB c1 && isLetterB c2 &&
          (match r2.dropWhile fun d => isSpace d with
           | ',' :: _ => true
           | _ => false) then
        some (c1, c2)
      else none
    | _ => none
  | _ => none

/-- Leftmost search for pattern 2. -/
def searchP2 : List Char → Option (Char × Char)
  | [] => none
  | c :: cs =>
    match matchP2At (c :: cs) with
    | some p => some p
    | none => searchP2 cs

/-- Try `([A-Za-z]{2})\s+\d{5}` anchored at the head of the list (the `\b`
boundary is handled by the caller). -/
def matchP3At : List Char → Option (Char × Char)
  | c1 :: c2 :: r2 =>
    if isLetterB c1 && isLetterB c2 && spacesThenZip r2 then some (c1, c2) else none
  | _ => none

/-- Leftmost search for the regex `\b([A-Za-z]{2})\s+\d{5}`.  The flag records
whether the previous character was a word character; the boundary before the
two (word) letters holds exactly when it was not. -/
def searchP3Aux : Bool → List Char → Option (Char × Char)
  | _, [] => none
  | prevWord, c :: cs =>
    match (if prevWord then none else matchP3At (c :: cs)) with
    | some p => some p
    | none => searchP3Aux (isWordChar c) cs

/-- Validate a captured two-letter group against `us_states` after
upper-casing, as at match_addresses.py lines 139-142. -/
def checkPat : Option (Char × Char) → Option String
  | some (c1, c2) =>
    let st := String.mk [c1.toUpper, c2.toUpper]
    if st ∈ us_states then some st else none
  | none => none

/-- Embedding of the pattern loop of `extract_state_from_address`
(match_addresses.py lines 126-143): try the three patterns in order and
return the first leftmost match whose upper-cased code is a valid state;
a pattern whose leftmost match has an invalid code falls through to the
next pattern. -/
def extract_state_core (s : String) : Option String :=
  match checkPat (searchP1 s.toList) with
  | some st => some st
  | none =>
    match checkPat (searchP2 s.toList) with
    | some st => some st
    | none => checkPat (searchP3Aux false s.toList)

/-- Embedding of `extract_state_from_address` including the `if not addr`
guard: null and empty inputs yield `none`. -/
def extract_state_from_address : Option String → Option String
  | none => none
  | some s => if s = "" then none else extract_state_core s

/-- Longest common subsequence on character lists, written with an explicit
fuel argument so that it is structurally recursive; every recursive call
shortens the combined length by at least one, so `|a| + |b|` fuel is enough. -/
def lcsAux : Nat → List Char → List Char → Nat
  | 0, _, _ => 0
  | _ + 1, [], _ => 0
  | _ + 1, _ :: _, [] => 0
  | fuel + 1, a :: as, b :: bs =>
    if a = b then lcsAux fuel as bs + 1
    else max (lcsAux fuel (a :: as) bs) (lcsAux fuel as (b :: bs))

/-- Longest common subsequence length of two character lists; the normalized
InDel similarity used by `rapidfuzz.fuzz.ratio` is `2·lcs/(|a|+|b|)`. -/
def lcs (a b : List Char) : Nat :=
  lcsAux (a.length + b.length) a b

/-- Lexicographic comparison of character lists, for `sorted()` over tokens. -/
def lexLt : List Char → List Char → Bool
  | [], [] => false
  | [], _ :: _ => true
  | _ :: _, [] => false
  | a :: as, b :: bs => if a < b then true else if b < a then false else lexLt as bs

/-- Insert a word into a lexicographically sorted list of words. -/
def insertLex (w : List Char) : List (List Char) → List (List Char)
  | [] => [w]
  | x :: xs => if lexLt w x then w :: x :: xs else x :: insertLex w xs

/-- Insertion sort of words, modelling Python's `sorted()`. -/
def sortLex : List (List Char) → List (List Char)
  | [] => []
  | w :: ws => insertLex w (sortLex ws)

/-- Remove duplicate words (Python's `set()`; the retained order is irrelevant
because the result is sorted afterwards). -/
def dedupTokens : List (List Char) → List (List Char)
  | [] => []
  | w :: ws => if w ∈ ws then dedupTokens ws else w :: dedupTokens ws

/-- Combinatorial core of the `token_set_ratio` model, kept rational-free so
that it evaluates by `decide`: `.inl 0` when either token set is empty,
`.inl 1` when the token sets intersect and one contains the other, and
otherwise `.inr (sectLen, bonus, abLen, baLen, lcsAB)` where `sectLen` is the
length of the joined sorted intersection, `bonus` is 1 exactly when the
intersection is non-empty (the separating space), `abLen`/`baLen` are the
lengths of the joined sorted differences and `lcsAB` is the longest common
subsequence length of those two joined strings. -/
def tokenSetCase (s1 s2 : String) : Nat ⊕ (Nat × Nat × Nat × Nat × Nat) :=
  let A := sortLex (dedupTokens (words s1.toList))
  let B := sortLex (dedupTokens (words s2.toList))
  if A = [] ∨ B = [] then .inl 0
  else
    let inter := A.filter (fun w => w ∈ B)
    let dab := A.filter (fun w => ¬ w ∈ B)
    let dba := B.filter (fun w => ¬ w ∈ A)
    if inter ≠ [] ∧ (dab = [] ∨ dba = []) then .inl 1
    else
      let abJ := joinWords dab
      let baJ := joinWords dba
      let sectLen := (joinWords inter).length
      let bonus : Nat := if sectLen = 0 then 0 else 1
      .inr (sectLen, bonus, abJ.length, baJ.length, lcs abJ baJ)

/-- Model of `rapidfuzz.fuzz.token_set_ratio(s1, s2) / 100`: split each string
into its set of whitespace-separated tokens; if the intersection is non-empty
and one token set contains the other the score is 1; otherwise compare the
sorted joined intersection/difference strings with the normalized InDel
similarity (`2·lcs/(len₁+len₂)`) and take the maximum of the three standard
combinations (difference vs difference including the common part, and common
part vs each side). -/
def tokenSetScore (s1 s2 : String) : ℚ :=
  match tokenSetCase s1 s2 with
  | .inl n => (n : ℚ)
  | .inr (sectLen, bonus, abLen, baLen, lcsAB) =>
    let sab := sectLen + bonus + abLen
    let sba := sectLen + bonus + baLen
    let r1 : ℚ := if sab + sba = 0 then 1 else
      ((2 * (sectLen + bonus) + 2 * lcsAB : ℕ) : ℚ) / ((sab + sba : ℕ) : ℚ)
    let r2 : ℚ := if sectLen + sab = 0 then 1 else
      ((2 * sectLen : ℕ) : ℚ) / ((sectLen + sab : ℕ) : ℚ)
    let r3 : ℚ := if sectLen + sba = 0 then 1 else
      ((2 * sectLen : ℕ) : ℚ) / ((sectLen + sba : ℕ) : ℚ)
    max r1 (max r2 r3)

/-- Embedding of `combined_similarity_score` (match_addresses.py lines
234-260), parameterized by the external similarity primitive `sim`
(`fuzz.token_set_ratio/100` in the rapidfuzz configuration, modelled by
`tokenSetScore`).  Returns 0 when either address is empty; combines address
and facility-name similarity 60/40 when the name similarity is positive and
returns the address similarity alone otherwise. -/
def combined_similarity_score (sim : String → String → ℚ)
    (target_addr target_facility candidate_addr candidate_name : String) : ℚ :=
  if target_addr = "" ∨ candidate_addr = "" then 0
  else
    let addr_score := sim target_addr candidate_addr
    let facility_score : ℚ :=
      if target_facility ≠ "" ∧ candidate_name ≠ "" then sim target_facility candidate_name
      else 0
    if 0 < facility_score then addr_score * (6/10) + facility_score * (4/10)
    else addr_score

variable {D : Type}

/-- One iteration of the `find_best_match_combined` loop: score the candidate
and replace the running best exactly on a strictly greater score. -/
def fbm_step (sim : String → String → ℚ) (ta tf : String)
    (best : Option D × ℚ) (c : String × String × D) : Option D × ℚ :=
  let score := combined_similarity_score sim ta tf c.1 c.2.1
  if best.2 < score then (some c.2.2, score) else best

/-- Embedding of `find_best_match_combined` (match_addresses.py lines
263-275): linear scan over `(address, name, payload)` candidates, keeping a
candidate only on a strictly greater score, starting from `(none, 0)`. -/
def find_best_match_combined (sim : String → String → ℚ) (ta tf : String)
    (cands : List (String × String × D)) : Option D × ℚ :=
  cands.foldl (fbm_step sim ta tf) (none, 0)

/-- A state-bucketed candidate index: association list from state key (or the
sentinel key `"__NO_STATE__"`) to the bucket of candidates, in insertion
order, as built at match_addresses.py lines 328-347 / 380-398. -/
def lookupBucket (index : List (String × List (String × String × D))) (st : String) :
    Option (List (String × String × D)) :=
  match index with
  | [] => none
  | (k, b) :: rest => if k = st then some b else lookupBucket rest st

/-- The union of every bucket of the index (all states plus the sentinel
no-state bucket), in index order — the candidate set scanned by the fallback
phase at match_addresses.py lines 427-429. -/
def allCandidates (index : List (String × List (String × String × D))) :
    List (String × String × D) :=
  (index.map Prod.snd).flatten

/-- The fixed acceptance threshold `match_threshold = 0.5`
(match_addresses.py line 406). -/
def match_threshold : ℚ := 1/2

/-- Phase 1 of the per-system resolution (match_addresses.py lines 419-422):
if the target has a derivable state and that state is a key of the index,
run the linear scan on that bucket alone; otherwise yield `(none, 0)`. -/
def state_filtered_phase (sim : String → String → ℚ) (ta tf : String)
    (ts : Option String) (index : List (String × List (String × String × D))) :
    Option D × ℚ :=
  match ts with
  | none => (none, 0)
  | some st =>
    match lookupBucket index st with
    | none => (none, 0)
    | some bucket => find_best_match_combined sim ta tf bucket

/-- Embedding of the two-phase per-system resolution of the main loop
(match_addresses.py lines 417-432): run the state-filtered scan, and whenever
it produced no candidate or a score below the threshold, overwrite its result
with a scan over the union of all buckets. -/
def resolve_system (sim : String → String → ℚ) (θ : ℚ) (ta tf : String)
    (ts : Option String) (index : List (String × List (String × String × D))) :
    Option D × ℚ :=
  let m1 : Option D × ℚ :=
    match ts with
    | none => (none, 0)
    | some st =>
      match lookupBucket index st with
      | none => (none, 0)
      | some bucket => find_best_match_combined sim ta tf bucket
  if m1.1.isNone ∨ m1.2 < θ then
    find_best_match_combined sim ta tf (allCandidates index)
  else m1

/-- Payload stored for one Corporations-list task
(match_addresses.py lines 364-369); the location is always stored blank. -/
structure CorpData where
  corporations_task_id : String
  corporations_task_name : String
  corporations_task_location : String
  corporations_task_url : String
deriving DecidableEq

/-- Candidate built from one Corporations-list row (match_addresses.py lines
362-371): the task name serves as both the address slot and the name slot,
and `corporations_task_location` is the empty string. -/
def corp_candidate_of_row (task_id task_name task_url : String) :
    String × String × CorpData :=
  (task_name, task_name, ⟨task_id, task_name, "", task_url⟩)

/-- The name-only linear scan over Corporations candidates
(match_addresses.py lines 457-467): strictly-greater updates from `(none, 0)`
on `sim facility_name candidate_name`. -/
def corp_best (sim : String → String → ℚ) (facility : String)
    (cands : List (String × String × CorpData)) : Option CorpData × ℚ :=
  cands.foldl (fun best c =>
    let score := sim facility c.2.1
    if best.2 < score then (some c.2.2, score) else best) (none, 0)

/-- The Corporations acceptance step (match_addresses.py lines 453-472): the
best candidate and its score are kept only when the candidate exists and the
score meets the threshold; otherwise both stay `(none, 0)`. -/
def corp_resolve (sim : String → String → ℚ) (θ : ℚ) (facility : String)
    (cands : List (String × String × CorpData)) : Option CorpData × ℚ :=
  let b := corp_best sim facility cands
  if b.1 ≠ none ∧ θ ≤ b.2 then b else (none, 0)

/-- Model of Python's `round(q, 3)`: round to 3 decimal places (the
half-to-even versus half-away tie behaviour of floats is immaterial here). -/
def round3 (q : ℚ) : ℚ :=
  ((round (q * 1000) : ℤ) : ℚ) / 1000

/-- Assembly of one textual output field for one system (match_addresses.py
lines 478-490): the candidate's stored value when a match exists and its
score meets the threshold, the empty string otherwise. -/
def populate_field (θ : ℚ) (m : Option D) (score : ℚ) (get : D → String) : String :=
  match m with
  | some d => if θ ≤ score then get d else ""
  | none => ""

/-- Assembly of one match-score output column (match_addresses.py lines 482,
485, 490): the score rounded to 3 decimals when a best candidate exists,
0 otherwise. -/
def score_field (m : Option D) (score : ℚ) : ℚ :=
  match m with
  | some _ => round3 score
  | none => 0

/-- One contact row at the deduplication step of process_contact_import.py
(lines 236-250): the four key columns plus the remaining columns, treated as
an opaque payload. -/
structure ContactRow where
  facility : String
  first_name : String
  last_name : String
  emails : String
  rest : String
deriving DecidableEq

/-- Pandas `.fillna('').str.lower().str.strip()` on one cell. -/
def lowerStrip (s : String) : String :=
  String.mk (strip (s.toList.map Char.toLower))

/-- The composite deduplication key of process_contact_import.py lines
239-244: lowercased/stripped facility, first name, last name and emails,
joined with `|`. -/
def dedup_key (r : ContactRow) : String :=
  lowerStrip r.facility ++ "|" ++ lowerStrip r.first_name ++ "|" ++
    lowerStrip r.last_name ++ "|" ++ lowerStrip r.emails

/-- Keep-first deduplication by key with an accumulator of seen keys, the
semantics of `drop_duplicates(subset=['dedup_key'], keep='first')`. -/
def dedupGo {α : Type} (key : α → String) : List String → List α → List α
  | _, [] => []
  | seen, r :: rs =>
    if key r ∈ seen then dedupGo key seen rs
    else r :: dedupGo key (key r :: seen) rs

/-- Keep-first deduplication of a list by a string key. -/
def drop_duplicates_first {α : Type} (key : α → String) (l : List α) : List α :=
  dedupGo key [] l

/-- The contact deduplication of process_contact_import.py lines 246-250. -/
def dedup_contacts (l : List ContactRow) : List ContactRow :=
  drop_duplicates_first dedup_key l

/-- The tail that word-joining appends after a non-space character, used to
relate `collapse ∘ stripTrail` to `joinWords ∘ words`: at a whitespace
character it emits one separating space exactly when more words follow, and
otherwise copies the character. -/
def restJoin : List Char → List Char
  | [] => []
  | c :: cs =>
    if isSpace c then
      match words cs with
      | [] => []
      | _ :: _ => ' ' :: joinWords (words cs)
    else c :: restJoin cs

/-- Invariant of whitespace-collapsed text: the only whitespace character
occurring is a plain space and no two adjacent characters are both
whitespace. -/
def wsOk : List Char → Bool
  | [] => true
  | [c] => !isSpace c || c == ' '
  | c :: d :: rest => ((!isSpace c || c == ' ') && !(isSpace c && isSpace d)) && wsOk (d :: rest)

/-- The list is empty or starts with a non-whitespace character. -/
def headNS : List Char → Prop
  | [] => True
  | c :: _ => isSpace c = false

/-- Auxiliary similarity table used to instantiate witnesses: scores 6/10
against the address "x", 61/100 against the address "y", 0 elsewhere. -/
def simW : String → String → ℚ :=
  fun _ b => if b = "x" then 6/10 else if b = "y" then 61/100 else 0

/-- Auxiliary similarity table for the C2 witness: 1 against the address "b"
and the raw rational 1/4 elsewhere (written as a literal so that it reduces). -/
def simW2 : String → String → ℚ :=
  fun _ b => if b = "b" then 1 else (⟨1, 4, by decide, by decide⟩ : ℚ)

/-- Candidate index for the C2 witness: one "TX" bucket whose only candidate
scores 1/4 and the sentinel bucket holding the perfect match. -/
def idxW : List (String × List (String × String × Nat)) :=
  [("TX", [("a", "", 1)]), ("__NO_STATE__", [("b", "", 2)])]

/-- Two contact rows that agree on the composite key after lowercasing and
trimming but differ elsewhere, for the C9 witness. -/
def rowA : ContactRow := ⟨"Acme", "Ann", "Lee", "a@x.com", "row1"⟩

/-- Second witness row, key-equal to `rowA` up to case and padding. -/
def rowB : ContactRow := ⟨"acme ", "ann", "lee", "A@X.com", "row2"⟩

/-! ### Helper lemmas -/

theorem toLower_idem (c : Char) : c.toLower.toLower = c.toLower := by
  simp only [Char.toLower]
  by_cases h : c.toNat ≥ 65 ∧ c.toNat ≤ 90
  · rw [if_pos h]
    obtain ⟨h1, h2⟩ := h
    set n := c.toNat with hn
    interval_cases n <;> decide
  · rw [if_neg h, if_neg h]

theorem checkPat_mem (r : Option (Char × Char)) (st : String)
    (h : checkPat r = some st) : st ∈ us_states := by
  cases r with
  | none => simp [checkPat] at h
  | some p =>
    obtain ⟨c1, c2⟩ := p
    simp only [checkPat] at h
    by_cases hm : String.mk [c1.toUpper, c2.toUpper] ∈ us_states
    · rw [if_pos hm] at h
      injection h with h
      exact h ▸ hm
    · rw [if_neg hm] at h
      cases h

theorem extract_state_mem (a : Option String) (st : String)
    (h : extract_state_from_address a = some st) : st ∈ us_states := by
  cases a with
  | none => simp [extract_state_from_address] at h
  | some s =>
    simp only [extract_state_from_address] at h
    by_cases hs : s = ""
    · rw [if_pos hs] at h; cases h
    · rw [if_neg hs] at h
      unfold extract_state_core at h
      cases h1 : checkPat (searchP1 s.toList) with
      | some st1 => rw [h1] at h; injection h with h; exact h ▸ checkPat_mem _ _ h1
      | none =>
        rw [h1] at h
        cases h2 : checkPat (searchP2 s.toList) with
        | some st2 => rw [h2] at h; injection h with h; exact h ▸ checkPat_mem _ _ h2
        | none => rw [h2] at h; exact checkPat_mem _ _ h

theorem fbm_step_snd_le (sim : String → String → ℚ) (ta tf : String)
    (b : Option D × ℚ) (c : String × String × D) :
    b.2 ≤ (fbm_step sim ta tf b c).2 := by
  simp only [fbm_step]
  by_cases h : b.2 < combined_similarity_score sim ta tf c.1 c.2.1
  · rw [if_pos h]; exact le_of_lt h
  · rw [if_neg h]

theorem fbm_step_score_le (sim : String → String → ℚ) (ta tf : String)
    (b : Option D × ℚ) (c : String × String × D) :
    combined_similarity_score sim ta tf c.1 c.2.1 ≤ (fbm_step sim ta tf b c).2 := by
  simp only [fbm_step]
  by_cases h : b.2 < combined_similarity_score sim ta tf c.1 c.2.1
  · rw [if_pos h]
  · rw [if_neg h]; exact le_of_not_lt h

theorem foldl_fbm_mono (sim : String → String → ℚ) (ta tf : String) :
    ∀ (l : List (String × String × D)) (b : Option D × ℚ),
      b.2 ≤ (l.foldl (fbm_step sim ta tf) b).2 := by
  intro l
  induction l with
  | nil => intro b; exact le_refl _
  | cons c cs ih =>
    intro b
    exact le_trans (fbm_step_snd_le sim ta tf b c) (ih _)

theorem foldl_fbm_mem_le (sim : String → String → ℚ) (ta tf : String) :
    ∀ (l : List (String × String × D)) (b : Option D × ℚ)
      (c : String × String × D), c ∈ l →
      combined_similarity_score sim ta tf c.1 c.2.1 ≤ (l.foldl (fbm_step sim ta tf) b).2 := by
  intro l
  induction l with
  | nil => intro b c hc; cases hc
  | cons d ds ih =>
    intro b c hc
    rcases List.mem_cons.mp hc with h | h
    · subst h
      exact le_trans (fbm_step_score_le sim ta tf b c) (foldl_fbm_mono sim ta tf ds _)
    · exact ih _ c h

theorem foldl_fbm_cases (sim : String → String → ℚ) (ta tf : String) :
    ∀ (l : List (String × String × D)) (b : Option D × ℚ),
      l.foldl (fbm_step sim ta tf) b = b ∨
        ∃ c ∈ l, l.foldl (fbm_step sim ta tf) b =
          (some c.2.2, combined_similarity_score sim ta tf c.1 c.2.1) := by
  intro l
  induction l with
  | nil => intro b; exact Or.inl rfl
  | cons c cs ih =>
    intro b
    have hstep : fbm_step sim ta tf b c = b ∨
        fbm_step sim ta tf b c =
          (some c.2.2, combined_similarity_score sim ta tf c.1 c.2.1) := by
      simp only [fbm_step]
      by_cases h : b.2 < combined_similarity_score sim ta tf c.1 c.2.1
      · rw [if_pos h]; exact Or.inr rfl
      · rw [if_neg h]; exact Or.inl rfl
    rcases ih (fbm_step sim ta tf b c) with h | ⟨d, hd, h⟩
    · rcases hstep with h2 | h2
      · exact Or.inl (by rw [List.foldl_cons, h, h2])
      · exact Or.inr ⟨c, List.mem_cons_self c cs, by rw [List.foldl_cons, h, h2]⟩
    · exact Or.inr ⟨d, List.mem_cons_of_mem c hd, by rw [List.foldl_cons, h]⟩

theorem find_best_snd_nonneg (sim : String → String → ℚ) (ta tf : String)
    (l : List (String × String × D)) :
    0 ≤ (find_best_match_combined sim ta tf l).2 :=
  foldl_fbm_mono sim ta tf l (none, 0)

theorem find_best_snd_le (sim : String → String → ℚ) (ta tf : String)
    (l : List (String × String × D)) (c : String × String × D) (hc : c ∈ l) :
    combined_similarity_score sim ta tf c.1 c.2.1 ≤ (find_best_match_combined sim ta tf l).2 :=
  foldl_fbm_mem_le sim ta tf l (none, 0) c hc

theorem find_best_cases (sim : String → String → ℚ) (ta tf : String)
    (l : List (String × String × D)) :
    find_best_match_combined sim ta tf l = (none, 0) ∨
      ∃ c ∈ l, find_best_match_combined sim ta tf l =
        (some c.2.2, combined_similarity_score sim ta tf c.1 c.2.1) :=
  foldl_fbm_cases sim ta tf l (none, 0)

theorem allCandidates_cons (k : String) (b : List (String × String × D))
    (rest : List (String × List (String × String × D))) :
    allCandidates ((k, b) :: rest) = b ++ allCandidates rest := rfl

theorem lookupBucket_sub (index : List (String × List (String × String × D)))
    (st : String) (bucket : List (String × String × D))
    (h : lookupBucket index st = some bucket) :
    ∀ c ∈ bucket, c ∈ allCandidates index := by
  induction index with
  | nil => simp [lookupBucket] at h
  | cons p rest ih =>
    obtain ⟨k, b⟩ := p
    simp only [lookupBucket] at h
    by_cases hk : k = st
    · rw [if_pos hk] at h
      injection h with h
      subst h
      intro c hc
      rw [allCandidates_cons]
      exact List.mem_append.mpr (Or.inl hc)
    · rw [if_neg hk] at h
      intro c hc
      rw [allCandidates_cons]
      exact List.mem_append.mpr (Or.inr (ih h c hc))

theorem splitWsAux_ne_nil (cs : List Char) :
    ∀ acc : List Char, acc ≠ [] → splitWsAux acc cs ≠ [] := by
  induction cs with
  | nil =>
    intro acc h
    simp only [splitWsAux]
    rw [if_neg h]
    simp
  | cons c cs ih =>
    intro acc h
    simp only [splitWsAux]
    by_cases hsp : isSpace c = true
    · rw [if_pos hsp, if_neg h]
      simp
    · rw [if_neg hsp]
      exact ih (c :: acc) (List.cons_ne_nil _ _)

theorem stripTrail_nil_iff (cs : List Char) :
    stripTrail cs = [] ↔ words cs = [] := by
  induction cs with
  | nil => simp [stripTrail, words, splitWsAux]
  | cons c cs ih =>
    by_cases hsp : isSpace c = true
    · by_cases ht : stripTrail cs = []
      · have hw : words cs = [] := ih.mp ht
        constructor
        · intro _
          simpa [words, splitWsAux, hsp] using hw
        · intro _
          simp only [stripTrail]
          rw [if_pos ⟨ht, hsp⟩]
      · constructor
        · intro h
          simp only [stripTrail] at h
          rw [if_neg (fun hc => ht hc.1)] at h
          exact absurd h (List.cons_ne_nil _ _)
        · intro h
          exfalso
          apply ht
          apply ih.mpr
          simpa [words, splitWsAux, hsp] using h
    · constructor
      · intro h
        simp only [stripTrail] at h
        rw [if_neg (fun hc => hsp hc.2)] at h
        exact absurd h (List.cons_ne_nil _ _)
      · intro h
        exfalso
        apply splitWsAux_ne_nil cs [c] (List.cons_ne_nil _ _)
        simpa [words, splitWsAux, hsp] using h

theorem joinWords_splitWsAux (cs : List Char) :
    ∀ acc : List Char, acc ≠ [] →
      joinWords (splitWsAux acc cs) = acc.reverse ++ restJoin cs := by
  induction cs with
  | nil =>
    intro acc h
    simp only [splitWsAux, restJoin]
    rw [if_neg h]
    simp [joinWords]
  | cons c cs ih =>
    intro acc h
    by_cases hsp : isSpace c = true
    · simp only [splitWsAux, restJoin]
      rw [if_pos hsp, if_neg h, if_pos hsp]
      simp only [joinWords, words]
    · simp only [splitWsAux, restJoin]
      rw [if_neg hsp, if_neg hsp]
      rw [ih (c :: acc) (List.cons_ne_nil _ _)]
      simp [List.reverse_cons, List.append_assoc]

theorem collapse_stripTrail (cs : List Char) :
    collapseAux false (stripTrail cs) = restJoin cs ∧
    collapseAux true (stripTrail cs) = joinWords (words cs) := by
  induction cs with
  | nil => exact ⟨rfl, rfl⟩
  | cons c cs ih =>
    by_cases hsp : isSpace c = true
    · have hwc : words (c :: cs) = words cs := by simp [words, splitWsAux, hsp]
      by_cases ht : stripTrail cs = []
      · have hw : words cs = [] := (stripTrail_nil_iff cs).mp ht
        have hst : stripTrail (c :: cs) = [] := by
          simp only [stripTrail]
          rw [if_pos ⟨ht, hsp⟩]
        constructor
        · rw [hst]
          simp [restJoin, collapseAux, hsp, hw]
        · rw [hst, hwc, hw]
          rfl
      · have hst : stripTrail (c :: cs) = c :: stripTrail cs := by
          simp only [stripTrail]
          rw [if_neg (fun hc => ht hc.1)]
        have hw : words cs ≠ [] := fun hh => ht ((stripTrail_nil_iff cs).mpr hh)
        constructor
        · rw [hst]
          simp only [collapseAux]
          rw [if_pos hsp]
          simp only [Bool.false_eq_true, if_false]
          simp only [restJoin]
          rw [if_pos hsp]
          rw [ih.2]
          cases hww : words cs with
          | nil => exact absurd hww hw
          | cons w ws => rfl
        · rw [hst]
          simp only [collapseAux]
          rw [if_pos hsp]
          simp only [if_true]
          rw [hwc]
          exact ih.2
    · have hst : stripTrail (c :: cs) = c :: stripTrail cs := by
        simp only [stripTrail]
        rw [if_neg (fun hc => hsp hc.2)]
      have hwc : words (c :: cs) = splitWsAux [c] cs := by
        simp [words, splitWsAux, hsp]
      constructor
      · rw [hst]
        simp only [collapseAux]
        rw [if_neg hsp, ih.1]
        simp [restJoin, hsp]
      · rw [hst]
        simp only [collapseAux]
        rw [if_neg hsp, ih.1, hwc]
        rw [joinWords_splitWsAux cs [c] (List.cons_ne_nil _ _)]
        rfl

theorem words_stripLead (l : List Char) : words (stripLead l) = words l := by
  induction l with
  | nil => rfl
  | cons c cs ih =>
    by_cases hsp : isSpace c = true
    · have : stripLead (c :: cs) = stripLead cs := by
        simp [stripLead, List.dropWhile_cons, hsp]
      rw [this, ih]
      simp [words, splitWsAux, hsp]
    · have : stripLead (c :: cs) = c :: cs := by
        simp [stripLead, List.dropWhile_cons, hsp]
      rw [this]

theorem stripLead_headNS (l : List Char) : headNS (stripLead l) := by
  induction l with
  | nil => trivial
  | cons c cs ih =>
    by_cases hsp : isSpace c = true
    · have : stripLead (c :: cs) = stripLead cs := by
        simp [stripLead, List.dropWhile_cons, hsp]
      rw [this]
      exact ih
    · have : stripLead (c :: cs) = c :: cs := by
        simp [stripLead, List.dropWhile_cons, hsp]
      rw [this]
      show isSpace c = false
      exact Bool.not_eq_true _ ▸ hsp

theorem restJoin_headNS (l : List Char) (h : headNS l) :
    restJoin l = joinWords (words l) := by
  cases l with
  | nil => rfl
  | cons c cs =>
    have hsp : isSpace c = false := h
    simp only [restJoin]
    rw [if_neg (by simp [hsp])]
    rw [show words (c :: cs) = splitWsAux [c] cs from by simp [words, splitWsAux, hsp]]
    rw [joinWords_splitWsAux cs [c] (List.cons_ne_nil _ _)]
    rfl

theorem wsOk_tail (c : Char) (cs : List Char) (h : wsOk (c :: cs) = true) :
    wsOk cs = true := by
  cases cs with
  | nil => rfl
  | cons d rest =>
    simp only [wsOk, Bool.and_eq_true] at h
    exact h.2

theorem wsOk_head_ok (c : Char) (cs : List Char) (h : wsOk (c :: cs) = true) :
    isSpace c = false ∨ c = ' ' := by
  have h1 : (!isSpace c || c == ' ') = true := by
    cases cs with
    | nil => exact h
    | cons d rest =>
      simp only [wsOk, Bool.and_eq_true] at h
      exact h.1.1
  rcases Bool.or_eq_true_iff.mp h1 with h2 | h2
  · exact Or.inl (Bool.not_eq_true' .. ▸ h2)
  · exact Or.inr (beq_iff_eq.mp h2)

theorem wsOk_adj (c d : Char) (rest : List Char) (h : wsOk (c :: d :: rest) = true)
    (hc : isSpace c = true) : isSpace d = false := by
  simp only [wsOk, Bool.and_eq_true] at h
  have h2 : (isSpace c && isSpace d) = false := Bool.not_eq_true' .. ▸ h.1.2
  simpa [hc] using h2

theorem wsOk_cons_nonspace (c : Char) (Y : List Char) (hc : isSpace c = false)
    (h : wsOk Y = true) : wsOk (c :: Y) = true := by
  cases Y with
  | nil => simp [wsOk, hc]
  | cons d rest => simp [wsOk, hc, h]

theorem wsOk_cons_space (Y : List Char) (hhd : headNS Y) (h : wsOk Y = true) :
    wsOk (' ' :: Y) = true := by
  cases Y with
  | nil => decide
  | cons d rest =>
    have hd : isSpace d = false := hhd
    simp [wsOk, hd, h]

theorem collapseAux_wsOk (l : List Char) :
    wsOk (collapseAux false l) = true ∧ wsOk (collapseAux true l) = true ∧
    headNS (collapseAux true l) := by
  induction l with
  | nil => exact ⟨rfl, rfl, trivial⟩
  | cons c cs ih =>
    by_cases hsp : isSpace c = true
    · refine ⟨?_, ?_, ?_⟩
      · simp only [collapseAux]
        rw [if_pos hsp]
        simp only [Bool.false_eq_true, if_false]
        exact wsOk_cons_space _ ih.2.2 ih.2.1
      · simp only [collapseAux]
        rw [if_pos hsp]
        simp only [if_true]
        exact ih.2.1
      · simp only [collapseAux]
        rw [if_pos hsp]
        simp only [if_true]
        exact ih.2.2
    · have hc : isSpace c = false := Bool.not_eq_true' .. ▸ (by simpa using hsp)
      refine ⟨?_, ?_, ?_⟩
      · simp only [collapseAux]
        rw [if_neg hsp]
        exact wsOk_cons_nonspace c _ hc ih.1
      · simp only [collapseAux]
        rw [if_neg hsp]
        exact wsOk_cons_nonspace c _ hc ih.1
      · simp only [collapseAux]
        rw [if_neg hsp]
        exact hc

theorem wsOk_take : ∀ (l : List Char) (n : Nat), wsOk l = true → wsOk (l.take n) = true
  | [], n, _ => by simp [List.take_nil]; rfl
  | _ :: _, 0, _ => rfl
  | [c], n + 1, h => by simpa using h
  | c :: d :: rest, n + 1, h => by
    rw [List.take_succ_cons]
    cases n with
    | zero =>
      rcases wsOk_head_ok c _ h with hc | hc
      · simp [wsOk, hc]
      · rw [List.take_zero]
        subst hc
        decide
    | succ m =>
      rw [List.take_succ_cons]
      simp only [wsOk, Bool.and_eq_true] at h ⊢
      exact ⟨h.1, by
        have := wsOk_take (d :: rest) (m + 1) h.2
        rw [List.take_succ_cons] at this
        exact this⟩

theorem stripTrail_take (l : List Char) : ∃ k, stripTrail l = l.take k := by
  induction l with
  | nil => exact ⟨0, rfl⟩
  | cons c cs ih =>
    obtain ⟨k, hk⟩ := ih
    by_cases h : stripTrail cs = [] ∧ isSpace c = true
    · refine ⟨0, ?_⟩
      simp only [stripTrail]
      rw [if_pos h]
      rfl
    · refine ⟨k + 1, ?_⟩
      simp only [stripTrail]
      rw [if_neg h, hk]
      rfl

theorem collapseAux_wsOk_id : ∀ l : List Char, wsOk l = true →
    collapseAux false l = l ∧ (headNS l → collapseAux true l = l) := by
  intro l
  induction l with
  | nil => exact fun _ => ⟨rfl, fun _ => rfl⟩
  | cons c cs ih =>
    intro h
    by_cases hsp : isSpace c = true
    · have hc : c = ' ' := by
        rcases wsOk_head_ok c _ h with h' | h'
        · rw [hsp] at h'; cases h'
        · exact h'
      have hhd : headNS cs := by
        cases cs with
        | nil => trivial
        | cons d rest => exact wsOk_adj c d rest h hsp
      constructor
      · simp only [collapseAux]
        rw [if_pos hsp]
        simp only [Bool.false_eq_true, if_false]
        rw [(ih (wsOk_tail _ _ h)).2 hhd, hc]
      · intro hh
        have : isSpace c = false := hh
        rw [this] at hsp
        cases hsp
    · have hc : isSpace c = false := Bool.not_eq_true' .. ▸ (by simpa using hsp)
      constructor
      · simp only [collapseAux]
        rw [if_neg hsp, (ih (wsOk_tail _ _ h)).1]
      · intro _
        simp only [collapseAux]
        rw [if_neg hsp, (ih (wsOk_tail _ _ h)).1]

theorem stripTrail_idem (l : List Char) : stripTrail (stripTrail l) = stripTrail l := by
  induction l with
  | nil => rfl
  | cons c cs ih =>
    by_cases h : stripTrail cs = [] ∧ isSpace c = true
    · simp only [stripTrail]
      rw [if_pos h]
      rfl
    · simp only [stripTrail]
      rw [if_neg h]
      simp only [stripTrail]
      rw [ih, if_neg h]

theorem stripLead_noop (l : List Char) (h : headNS l) : stripLead l = l := by
  cases l with
  | nil => rfl
  | cons c cs =>
    have hc : isSpace c = false := h
    simp [stripLead, List.dropWhile_cons, hc]

theorem headNS_take (l : List Char) (n : Nat) (h : headNS l) : headNS (l.take n) := by
  cases l with
  | nil => rw [List.take_nil]; trivial
  | cons c cs =>
    cases n with
    | zero => trivial
    | succ m => exact h

theorem headNS_stripTrail (l : List Char) (h : headNS l) : headNS (stripTrail l) := by
  obtain ⟨k, hk⟩ := stripTrail_take l
  rw [hk]
  exact headNS_take l k h

theorem strip_idem (l : List Char) : strip (strip l) = strip l := by
  unfold strip
  rw [stripLead_noop (stripTrail (stripLead l)) (headNS_stripTrail _ (stripLead_headNS l))]
  exact stripTrail_idem _

theorem mem_stripTrail (l : List Char) (c : Char) (h : c ∈ stripTrail l) : c ∈ l := by
  obtain ⟨k, hk⟩ := stripTrail_take l
  rw [hk] at h
  exact List.take_subset k l h

theorem mem_stripLead (l : List Char) (c : Char) (h : c ∈ stripLead l) : c ∈ l :=
  (List.dropWhile_sublist _).subset h

theorem mem_strip (l : List Char) (c : Char) (h : c ∈ strip l) : c ∈ l :=
  mem_stripLead l c (mem_stripTrail _ c h)

theorem mem_collapseAux : ∀ (l : List Char) (b : Bool) (c : Char),
    c ∈ collapseAux b l → c = ' ' ∨ c ∈ l := by
  intro l
  induction l with
  | nil => intro b c h; simp [collapseAux] at h
  | cons d ds ih =>
    intro b c h
    by_cases hsp : isSpace d = true
    · simp only [collapseAux] at h
      rw [if_pos hsp] at h
      cases b with
      | true =>
        simp only [if_true] at h
        rcases ih true c h with h' | h'
        · exact Or.inl h'
        · exact Or.inr (List.mem_cons_of_mem _ h')
      | false =>
        simp only [Bool.false_eq_true, if_false] at h
        rcases List.mem_cons.mp h with h' | h'
        · exact Or.inl h'
        · rcases ih true c h' with h2 | h2
          · exact Or.inl h2
          · exact Or.inr (List.mem_cons_of_mem _ h2)
    · simp only [collapseAux] at h
      rw [if_neg hsp] at h
      rcases List.mem_cons.mp h with h' | h'
      · exact Or.inr (h' ▸ List.mem_cons_self _ _)
      · rcases ih false c h' with h2 | h2
        · exact Or.inl h2
        · exact Or.inr (List.mem_cons_of_mem _ h2)

theorem mem_dropTrailComma (l : List Char) (c : Char) (h : c ∈ dropTrailComma l) :
    c ∈ l := by
  unfold dropTrailComma at h
  by_cases hg : l.getLast? = some ','
  · rw [if_pos hg] at h
    exact (List.dropLast_sublist l).subset h
  · rw [if_neg hg] at h
    exact h

theorem mem_stripEndSub (suf l : List Char) (c : Char) (h : c ∈ stripEndSub suf l) :
    c ∈ l := by
  unfold stripEndSub at h
  by_cases hs : hasSuffix suf l
  · rw [if_pos hs] at h
    exact List.take_subset _ _ (mem_stripTrail _ _ (mem_dropTrailComma _ _ h))
  · rw [if_neg hs] at h
    exact h

theorem dropTrailComma_take (l : List Char) : ∃ k, dropTrailComma l = l.take k := by
  unfold dropTrailComma
  by_cases hg : l.getLast? = some ','
  · rw [if_pos hg]
    exact ⟨l.length - 1, List.dropLast_eq_take l⟩
  · rw [if_neg hg]
    exact ⟨l.length, (List.take_length l).symm⟩

theorem stripEndSub_take (suf l : List Char) : ∃ k, stripEndSub suf l = l.take k := by
  unfold stripEndSub
  by_cases hs : hasSuffix suf l
  · rw [if_pos hs]
    obtain ⟨k1, h1⟩ := stripTrail_take (l.take (l.length - suf.length))
    obtain ⟨k2, h2⟩ := dropTrailComma_take (stripTrail (l.take (l.length - suf.length)))
    rw [h2, h1, List.take_take, List.take_take]
    exact ⟨_, rfl⟩
  · rw [if_neg hs]
    exact ⟨l.length, (List.take_length l).symm⟩

theorem wsOk_stripEndSub (suf l : List Char) (h : wsOk l = true) :
    wsOk (stripEndSub suf l) = true := by
  obtain ⟨k, hk⟩ := stripEndSub_take suf l
  rw [hk]
  exact wsOk_take l k h

theorem wsOk_stripLead (l : List Char) (h : wsOk l = true) :
    wsOk (stripLead l) = true := by
  induction l with
  | nil => exact h
  | cons c cs ih =>
    by_cases hsp : isSpace c = true
    · rw [show stripLead (c :: cs) = stripLead cs from by
        simp [stripLead, List.dropWhile_cons, hsp]]
      exact ih (wsOk_tail _ _ h)
    · rw [show stripLead (c :: cs) = c :: cs from by
        simp [stripLead, List.dropWhile_cons, hsp]]
      exact h

theorem wsOk_strip (l : List Char) (h : wsOk l = true) : wsOk (strip l) = true := by
  obtain ⟨k, hk⟩ := stripTrail_take (stripLead l)
  unfold strip
  rw [hk]
  exact wsOk_take _ k (wsOk_stripLead l h)

theorem map_toLower_id (l : List Char) (h : ∀ c ∈ l, c.toLower = c) :
    l.map Char.toLower = l := by
  induction l with
  | nil => rfl
  | cons c cs ih =>
    simp only [List.map_cons]
    rw [h c (List.mem_cons_self _ _), ih (fun d hd => h d (List.mem_cons_of_mem _ hd))]

theorem collapse_strip_eq_joinWords (l : List Char) :
    collapse (strip l) = joinWords (words l) := by
  show collapseAux false (stripTrail (stripLead l)) = joinWords (words l)
  rw [(collapse_stripTrail (stripLead l)).1]
  rw [restJoin_headNS (stripLead l) (stripLead_headNS l)]
  rw [words_stripLead]

theorem mk_toList (s : String) : String.mk s.toList = s := rfl

theorem normalize_chars_fixed (s : String) :
    ∀ c ∈ (normalize_address_str s).toList, c.toLower = c := by
  intro c hc
  have h1 : c ∈ stripEndSub "usa".toList (stripEndSub "united states of america".toList
      (collapse (strip (s.toList.map Char.toLower)))) := mem_strip _ _ hc
  have h2 := mem_stripEndSub _ _ _ h1
  have h3 := mem_stripEndSub _ _ _ h2
  rcases mem_collapseAux _ _ _ h3 with he | h4
  · rw [he]; decide
  · have h5 := mem_strip _ _ h4
    obtain ⟨d, _, he⟩ := List.mem_map.mp h5
    rw [← he]
    exact toLower_idem d

theorem strip_normalize (s : String) :
    strip (normalize_address_str s).toList = (normalize_address_str s).toList :=
  strip_idem _

theorem wsOk_normalize (s : String) : wsOk (normalize_address_str s).toList = true := by
  show wsOk (strip (stripEndSub "usa".toList (stripEndSub "united states of america".toList
      (collapse (strip (s.toList.map Char.toLower)))))) = true
  exact wsOk_strip _ (wsOk_stripEndSub _ _ (wsOk_stripEndSub _ _ (collapseAux_wsOk _).1))

theorem tokenSetScore_abc_xyz : tokenSetScore "abc" "xyz" = 0 := by
  have h : tokenSetCase "abc" "xyz" = .inr (0, 0, 3, 3, 0) := by decide
  simp [tokenSetScore, h]

theorem tokenSetScore_main_self : tokenSetScore "12 main" "12 main" = 1 := by
  have h : tokenSetCase "12 main" "12 main" = .inl 1 := by decide
  simp [tokenSetScore, h]

theorem tokenSetScore_acme_self : tokenSetScore "acme" "acme" = 1 := by
  have h : tokenSetCase "acme" "acme" = .inl 1 := by decide
  simp [tokenSetScore, h]

theorem simW_combined_x (tf : String) :
    combined_similarity_score simW "t" tf "x" "" = 6/10 := by
  simp [combined_similarity_score, simW]

theorem simW_combined_y (tf : String) :
    combined_similarity_score simW "t" tf "y" "" = 61/100 := by
  simp [combined_similarity_score, simW]

/-! ### Claims -/

/-- C8: for null (`none`) or empty input, state extraction returns `none` and
address normalization returns the empty string; both operations are total
functions, so neither can raise. -/
theorem claim_C8 :
    extract_state_from_address none = none ∧
    extract_state_from_address (some "") = none ∧
    normalize_address none = "" ∧
    normalize_address (some "") = "" :=
  ⟨rfl, by decide, rfl, by decide⟩

/-- C4: state extraction tries the three patterns in order, accepting the
first (leftmost) match whose upper-cased two-letter code lies in the fixed
set of 56 codes; on the two reference inputs it returns "IL" and `none`
respectively, and any returned code belongs to `us_states`. -/
theorem claim_C4 :
    extract_state_from_address (some "123 Main St, Springfield, IL 62701") = some "IL" ∧
    extract_state_from_address (some "no state info here") = none ∧
    ∀ (a : Option String) (st : String),
      extract_state_from_address a = some st → st ∈ us_states :=
  ⟨by decide, by decide, extract_state_mem⟩

theorem claim_C4_witness : "IL" ∈ us_states :=
  claim_C4.2.2 (some "123 Main St, Springfield, IL 62701") "IL" claim_C4.1

/-- C5: `find_best_match_combined` returns `(none, 0)` on the empty candidate
list; of two candidates scoring 6/10 and 61/100 it returns the second with
its score; and on a tie the first-seen candidate wins, because a candidate is
taken only on a strictly greater score. -/
theorem claim_C5 (sim : String → String → ℚ) (ta tf : String) :
    find_best_match_combined sim ta tf ([] : List (String × String × D)) = (none, 0) ∧
    (∀ (a1 n1 : String) (d1 : D) (a2 n2 : String) (d2 : D),
      combined_similarity_score sim ta tf a1 n1 = 6/10 →
      combined_similarity_score sim ta tf a2 n2 = 61/100 →
      find_best_match_combined sim ta tf [(a1, n1, d1), (a2, n2, d2)] = (some d2, 61/100)) ∧
    (∀ (a1 n1 : String) (d1 : D) (a2 n2 : String) (d2 : D) (s : ℚ), 0 < s →
      combined_similarity_score sim ta tf a1 n1 = s →
      combined_similarity_score sim ta tf a2 n2 = s →
      find_best_match_combined sim ta tf [(a1, n1, d1), (a2, n2, d2)] = (some d1, s)) := by
  refine ⟨rfl, ?_, ?_⟩
  · intro a1 n1 d1 a2 n2 d2 h1 h2
    unfold find_best_match_combined
    simp only [List.foldl_cons, List.foldl_nil, fbm_step, h1, h2]
    norm_num
  · intro a1 n1 d1 a2 n2 d2 s hs h1 h2
    unfold find_best_match_combined
    simp only [List.foldl_cons, List.foldl_nil, fbm_step, h1, h2]
    rw [if_pos hs]
    rw [if_neg (lt_irrefl s)]

theorem claim_C5_witness :
    find_best_match_combined simW "t" "" [("x", "", (0 : Nat)), ("y", "", (1 : Nat))] =
      (some 1, 61/100) :=
  (claim_C5 simW "t" "").2.1 "x" "" 0 "y" "" 1 (simW_combined_x "") (simW_combined_y "")

/-- C1 as stated is false on the code: with both names non-empty but sharing
no similarity at all (`token_set_ratio = 0`), the `facility_score > 0` guard
makes the function return the address similarity alone rather than the
weighted sum `0.6·addr + 0.4·0`.  Here the addresses are identical (address
similarity 1) while the names "abc" and "xyz" have similarity 0: the code
returns 1, while the claimed formula yields 6/10. -/
theorem claim_C1_counterexample :
    ("abc" ≠ "" ∧ "xyz" ≠ "") ∧
    combined_similarity_score tokenSetScore "12 main" "abc" "12 main" "xyz" =
      tokenSetScore "12 main" "12 main" ∧
    combined_similarity_score tokenSetScore "12 main" "abc" "12 main" "xyz" ≠
      tokenSetScore "12 main" "12 main" * (6/10) + tokenSetScore "abc" "xyz" * (4/10) := by
  refine ⟨⟨by decide, by decide⟩, ?_, ?_⟩
  · simp [combined_similarity_score, tokenSetScore_abc_xyz, tokenSetScore_main_self]
  · simp [combined_similarity_score, tokenSetScore_abc_xyz, tokenSetScore_main_self]
    norm_num

/-- C1 amended: for non-empty target and candidate addresses, the combined
score is the 60/40 weighted sum exactly when both names are non-empty AND
their similarity is strictly positive; otherwise it is the address similarity
alone. -/
theorem claim_C1 (sim : String → String → ℚ) (ta tf ca cn : String)
    (h1 : ta ≠ "") (h2 : ca ≠ "") :
    combined_similarity_score sim ta tf ca cn =
      if tf ≠ "" ∧ cn ≠ "" ∧ 0 < sim tf cn then
        sim ta ca * (6/10) + sim tf cn * (4/10)
      else sim ta ca := by
  simp only [combined_similarity_score]
  rw [if_neg (by simp [h1, h2])]
  by_cases hf : tf ≠ "" ∧ cn ≠ ""
  · rw [if_pos hf]
    by_cases hp : 0 < sim tf cn
    · rw [if_pos hp, if_pos ⟨hf.1, hf.2, hp⟩]
    · rw [if_neg hp, if_neg (fun hc => hp hc.2.2)]
  · rw [if_neg hf, if_neg (lt_irrefl 0), if_neg (fun hc => hf ⟨hc.1, hc.2.1⟩)]

theorem claim_C1_witness :
    combined_similarity_score tokenSetScore "12 main" "" "12 main" "" =
      if ("" : String) ≠ "" ∧ ("" : String) ≠ "" ∧ 0 < tokenSetScore "" "" then
        tokenSetScore "12 main" "12 main" * (6/10) + tokenSetScore "" "" * (4/10)
      else tokenSetScore "12 main" "12 main" :=
  claim_C1 tokenSetScore "12 main" "" "12 main" "" (by decide) (by decide)

/-- C2: per system, the fallback scan over the union of all buckets runs
exactly when the state-filtered phase produced no candidate or a score below
the 0.5 threshold, and in that case its result replaces the state-filtered
one; every bucket of the index (state buckets and the sentinel bucket alike)
is contained in the scanned union. -/
theorem claim_C2 (sim : String → String → ℚ) (ta tf : String) (ts : Option String)
    (index : List (String × List (String × String × D))) :
    ((state_filtered_phase sim ta tf ts index).1.isNone ∨
        (state_filtered_phase sim ta tf ts index).2 < match_threshold →
      resolve_system sim match_threshold ta tf ts index =
        find_best_match_combined sim ta tf (allCandidates index)) ∧
    (¬ ((state_filtered_phase sim ta tf ts index).1.isNone ∨
        (state_filtered_phase sim ta tf ts index).2 < match_threshold) →
      resolve_system sim match_threshold ta tf ts index =
        state_filtered_phase sim ta tf ts index) ∧
    (∀ (st : String) (bucket : List (String × String × D)), (st, bucket) ∈ index →
      ∀ c ∈ bucket, c ∈ allCandidates index) := by
  have hr : resolve_system sim match_threshold ta tf ts index =
      if (state_filtered_phase sim ta tf ts index).1.isNone ∨
          (state_filtered_phase sim ta tf ts index).2 < match_threshold then
        find_best_match_combined sim ta tf (allCandidates index)
      else state_filtered_phase sim ta tf ts index := rfl
  refine ⟨?_, ?_, ?_⟩
  · intro h; rw [hr, if_pos h]
  · intro h; rw [hr, if_neg h]
  · intro st bucket hmem c hc
    have hb : bucket ∈ index.map Prod.snd := List.mem_map.mpr ⟨(st, bucket), hmem, rfl⟩
    exact List.mem_flatten.mpr ⟨bucket, hb, hc⟩

theorem claim_C2_witness :
    resolve_system simW2 match_threshold "t" "" (some "TX") idxW =
      find_best_match_combined simW2 "t" "" (allCandidates idxW) := by
  have hp : state_filtered_phase simW2 "t" "" (some "TX") idxW =
      (some 1, (⟨1, 4, by decide, by decide⟩ : ℚ)) := by decide
  refine (claim_C2 simW2 "t" "" (some "TX") idxW).1 (Or.inr ?_)
  rw [hp]
  show (⟨1, 4, by decide, by decide⟩ : ℚ) < match_threshold
  rw [Rat.mk'_eq_divInt, Rat.divInt_eq_div]
  norm_num [match_threshold]

/-- C10: the fallback candidate set is a superset of every state bucket, so
the fallback best score is at least the state-filtered best score, and the
per-system resolution never reports a score below the state-filtered one. -/
theorem claim_C10 (sim : String → String → ℚ) (θ : ℚ) (ta tf : String)
    (ts : Option String) (index : List (String × List (String × String × D))) :
    (state_filtered_phase sim ta tf ts index).2 ≤
      (find_best_match_combined sim ta tf (allCandidates index)).2 ∧
    (state_filtered_phase sim ta tf ts index).2 ≤
      (resolve_system sim θ ta tf ts index).2 := by
  have key : (state_filtered_phase sim ta tf ts index).2 ≤
      (find_best_match_combined sim ta tf (allCandidates index)).2 := by
    cases ts with
    | none =>
      simpa [state_filtered_phase] using find_best_snd_nonneg sim ta tf (allCandidates index)
    | some st =>
      cases hb : lookupBucket index st with
      | none =>
        simp only [state_filtered_phase, hb]
        exact find_best_snd_nonneg sim ta tf (allCandidates index)
      | some bucket =>
        simp only [state_filtered_phase, hb]
        rcases find_best_cases sim ta tf bucket with h | ⟨c, hc, h⟩
        · rw [h]
          exact find_best_snd_nonneg sim ta tf (allCandidates index)
        · rw [h]
          exact find_best_snd_le sim ta tf (allCandidates index) c
            (lookupBucket_sub index st bucket hb c hc)
  have hr : resolve_system sim θ ta tf ts index =
      if (state_filtered_phase sim ta tf ts index).1.isNone ∨
          (state_filtered_phase sim ta tf ts index).2 < θ then
        find_best_match_combined sim ta tf (allCandidates index)
      else state_filtered_phase sim ta tf ts index := rfl
  refine ⟨key, ?_⟩
  rw [hr]
  by_cases h : (state_filtered_phase sim ta tf ts index).1.isNone ∨
      (state_filtered_phase sim ta tf ts index).2 < θ
  · rw [if_pos h]; exact key
  · rw [if_neg h]

/-- C3 as stated is false on the code: the Corporations payload always stores
a blank location (match_addresses.py line 367), so an accepted Corporations
match — here with score 1 ≥ 0.5 — still produces a blank
`corporations_task_location` output field, refuting "non-blank iff the final
best score is at least 0.5". -/
theorem claim_C3_counterexample :
    match_threshold ≤
      (corp_resolve tokenSetScore match_threshold "acme"
        [corp_candidate_of_row "42" "acme" "u"]).2 ∧
    populate_field match_threshold
      (corp_resolve tokenSetScore match_threshold "acme"
        [corp_candidate_of_row "42" "acme" "u"]).1
      (corp_resolve tokenSetScore match_threshold "acme"
        [corp_candidate_of_row "42" "acme" "u"]).2
      (fun d => d.corporations_task_location) = "" := by
  have hb : corp_best tokenSetScore "acme" [corp_candidate_of_row "42" "acme" "u"] =
      (some ⟨"42", "acme", "", "u"⟩, 1) := by
    simp [corp_best, corp_candidate_of_row, tokenSetScore_acme_self]
  have hr : corp_resolve tokenSetScore match_threshold "acme"
      [corp_candidate_of_row "42" "acme" "u"] = (some ⟨"42", "acme", "", "u"⟩, 1) := by
    simp only [corp_resolve, hb]
    rw [if_pos]
    exact ⟨by simp, by norm_num [match_threshold]⟩
  rw [hr]
  exact ⟨by norm_num [match_threshold], by simp [populate_field]⟩

/-- C3 amended: an output field equals the matched candidate's stored value
exactly when a candidate exists and its score meets the threshold (the stored
value itself may be blank), and is blank otherwise; the score column reports
the 3-decimal rounding of the best score whenever a candidate exists and 0
otherwise; for the Corporations system a best score below the threshold is
discarded entirely, so it is reported as no-candidate with score 0. -/
theorem claim_C3 (θ sc : ℚ) (get : D → String) :
    populate_field θ (none : Option D) sc get = "" ∧
    (∀ d : D, θ ≤ sc → populate_field θ (some d) sc get = get d) ∧
    (∀ d : D, sc < θ → populate_field θ (some d) sc get = "") ∧
    score_field (none : Option D) sc = 0 ∧
    (∀ d : D, score_field (some d) sc = round3 sc) ∧
    (∀ (sim : String → String → ℚ) (fac : String)
        (cands : List (String × String × CorpData)),
      (corp_best sim fac cands).2 < θ →
      corp_resolve sim θ fac cands = (none, 0)) := by
  refine ⟨rfl, ?_, ?_, rfl, fun d => rfl, ?_⟩
  · intro d h
    simp [populate_field, h]
  · intro d h
    simp [populate_field, not_le.mpr h]
  · intro sim fac cands h
    simp only [corp_resolve]
    rw [if_neg]
    intro hc
    exact absurd hc.2 (not_le.mpr h)

theorem dedupGo_sublist {α : Type} (key : α → String) :
    ∀ (l : List α) (seen : List String), (dedupGo key seen l).Sublist l := by
  intro l
  induction l with
  | nil => intro seen; simp [dedupGo]
  | cons r rs ih =>
    intro seen
    simp only [dedupGo]
    by_cases h : key r ∈ seen
    · rw [if_pos h]
      exact (ih seen).cons r
    · rw [if_neg h]
      exact (ih _).cons₂ r

theorem dedupGo_mem_key {α : Type} (key : α → String) :
    ∀ (l : List α) (seen : List String) (r : α),
      r ∈ dedupGo key seen l → key r ∉ seen := by
  intro l
  induction l with
  | nil => intro seen r hr; simp [dedupGo] at hr
  | cons c cs ih =>
    intro seen r hr
    simp only [dedupGo] at hr
    by_cases h : key c ∈ seen
    · rw [if_pos h] at hr
      exact ih seen r hr
    · rw [if_neg h] at hr
      rcases List.mem_cons.mp hr with rfl | hr
      · exact h
      · have := ih _ r hr
        exact fun hs => this (List.mem_cons_of_mem _ hs)

theorem dedupGo_keys_nodup {α : Type} (key : α → String) :
    ∀ (l : List α) (seen : List String), ((dedupGo key seen l).map key).Nodup := by
  intro l
  induction l with
  | nil => intro seen; simp [dedupGo]
  | cons c cs ih =>
    intro seen
    simp only [dedupGo]
    by_cases h : key c ∈ seen
    · rw [if_pos h]
      exact ih seen
    · rw [if_neg h]
      simp only [List.map_cons, List.nodup_cons]
      refine ⟨?_, ih _⟩
      intro hmem
      obtain ⟨r, hr, hkey⟩ := List.mem_map.mp hmem
      exact dedupGo_mem_key key cs _ r hr (hkey ▸ List.mem_cons_self _ _)

theorem dedupGo_complete {α : Type} (key : α → String) :
    ∀ (l : List α) (seen : List String) (r : α), r ∈ l →
      key r ∈ seen ∨ ∃ q ∈ dedupGo key seen l, key q = key r := by
  intro l
  induction l with
  | nil => intro seen r hr; cases hr
  | cons c cs ih =>
    intro seen r hr
    simp only [dedupGo]
    by_cases h : key c ∈ seen
    · rw [if_pos h]
      rcases List.mem_cons.mp hr with rfl | hr
      · exact Or.inl h
      · exact ih seen r hr
    · rw [if_neg h]
      rcases List.mem_cons.mp hr with he | hr
      · exact Or.inr ⟨c, List.mem_cons_self _ _, by rw [he]⟩
      · rcases ih (key c :: seen) r hr with hs | ⟨q, hq, hkey⟩
        · rcases List.mem_cons.mp hs with he | hs
          · exact Or.inr ⟨c, List.mem_cons_self _ _, he.symm⟩
          · exact Or.inl hs
        · exact Or.inr ⟨q, List.mem_cons_of_mem _ hq, hkey⟩

theorem dedupGo_first {α : Type} (key : α → String) :
    ∀ (l : List α) (seen : List String) (r : α), r ∈ dedupGo key seen l →
      key r ∉ seen ∧ ∃ l1 l2, l = l1 ++ r :: l2 ∧
        ∀ x ∈ l1, key x ∈ seen ∨ key x ≠ key r := by
  intro l
  induction l with
  | nil => intro seen r hr; simp [dedupGo] at hr
  | cons c cs ih =>
    intro seen r hr
    simp only [dedupGo] at hr
    by_cases h : key c ∈ seen
    · rw [if_pos h] at hr
      obtain ⟨hnot, l1, l2, heq, hall⟩ := ih seen r hr
      refine ⟨hnot, c :: l1, l2, by rw [heq]; rfl, ?_⟩
      intro x hx
      rcases List.mem_cons.mp hx with rfl | hx
      · exact Or.inl h
      · exact hall x hx
    · rw [if_neg h] at hr
      rcases List.mem_cons.mp hr with rfl | hr
      · exact ⟨h, [], cs, rfl, by intro x hx; cases hx⟩
      · obtain ⟨hnot, l1, l2, heq, hall⟩ := ih _ r hr
        have hne : key r ≠ key c := fun he => hnot (he ▸ List.mem_cons_self _ _)
        have hnotseen : key r ∉ seen := fun hs => hnot (List.mem_cons_of_mem _ hs)
        refine ⟨hnotseen, c :: l1, l2, by rw [heq]; rfl, ?_⟩
        intro x hx
        rcases List.mem_cons.mp hx with rfl | hx
        · exact Or.inr (fun he => hne he.symm)
        · rcases hall x hx with hs | hne2
          · rcases List.mem_cons.mp hs with he | hs
            · exact Or.inr (fun h2 => hne ((he ▸ h2).symm ▸ rfl))
            · exact Or.inl hs
          · exact Or.inr hne2

/-- C9: the contact deduplication keeps a subsequence of the original rows
(original relative order preserved), the surviving composite keys are
pairwise distinct, every input key is represented by a survivor, and each
survivor is the first row of the input carrying its key. -/
theorem claim_C9 (rows : List ContactRow) :
    (dedup_contacts rows).Sublist rows ∧
    ((dedup_contacts rows).map dedup_key).Nodup ∧
    (∀ r ∈ rows, ∃ q ∈ dedup_contacts rows, dedup_key q = dedup_key r) ∧
    (∀ r ∈ dedup_contacts rows, ∃ l1 l2, rows = l1 ++ r :: l2 ∧
      ∀ x ∈ l1, dedup_key x ≠ dedup_key r) := by
  refine ⟨dedupGo_sublist _ rows [], dedupGo_keys_nodup _ rows [], ?_, ?_⟩
  · intro r hr
    rcases dedupGo_complete dedup_key rows [] r hr with h | h
    · cases h
    · exact h
  · intro r hr
    obtain ⟨hnot, l1, l2, heq, hall⟩ := dedupGo_first dedup_key rows [] r hr
    refine ⟨l1, l2, heq, ?_⟩
    intro x hx
    rcases hall x hx with hs | hne
    · cases hs
    · exact hne

theorem claim_C9_witness :
    ∃ q ∈ dedup_contacts [rowA, rowB], dedup_key q = dedup_key rowB :=
  (claim_C9 [rowA, rowB]).2.2.1 rowB (by simp)

/-- C7 as stated is false on the code: `normalize_address` strips a trailing
"united states of america", not a trailing "united states"; on the input
"1 A St, United States" the code keeps the suffix the claim says is removed,
while the claim's own reading (`normalize_claimed`) strips it. -/
theorem claim_C7_counterexample :
    normalize_address_str "1 A St, United States" = "1 a st, united states" ∧
    normalize_claimed "1 A St, United States" = "1 a st" ∧
    normalize_address_str "1 A St, United States" ≠
      normalize_claimed "1 A St, United States" :=
  ⟨by decide, by decide, by decide⟩

/-- C7 amended: normalization returns the input lowercased, with whitespace
runs collapsed to single spaces and boundary whitespace removed
(equivalently: the whitespace-separated words rejoined with single spaces),
with a trailing "united states of america" and then a trailing "usa" suffix
(each with an optional preceding comma) removed, and boundary whitespace
removed. -/
theorem claim_C7 (s : String) :
    normalize_address_str s = normalize_words_model s := by
  unfold normalize_address_str normalize_words_model
  rw [collapse_strip_eq_joinWords]

/-- C6 as stated is false on the code: each suffix substitution removes only
one trailing occurrence, so a normalized output can itself still end in a
strippable suffix; "x usausa" normalizes to "x usa", which normalizes again
to "x". -/
theorem claim_C6_counterexample :
    normalize_address_str (normalize_address_str "x usausa") ≠
      normalize_address_str "x usausa" ∧
    normalize_address_str "x usausa" = "x usa" ∧
    normalize_address_str (normalize_address_str "x usausa") = "x" :=
  ⟨by decide, by decide, by decide⟩

/-- C6 amended: normalization is idempotent on every input whose normalized
form does not still end with "usa" or with "united states of america" (the
lowercasing, whitespace collapsing and stripping are always idempotent; only
a leftover strippable suffix can make a second pass differ). -/
theorem claim_C6 (s : String)
    (h3 : ¬ hasSuffix "usa".toList (normalize_address_str s).toList)
    (hL : ¬ hasSuffix "united states of america".toList (normalize_address_str s).toList) :
    normalize_address_str (normalize_address_str s) = normalize_address_str s := by
  have hmap : (normalize_address_str s).toList.map Char.toLower =
      (normalize_address_str s).toList := map_toLower_id _ (normalize_chars_fixed s)
  have hstrip := strip_normalize s
  have hcol : collapse (normalize_address_str s).toList = (normalize_address_str s).toList :=
    (collapseAux_wsOk_id _ (wsOk_normalize s)).1
  have hL' : stripEndSub "united states of america".toList
      (normalize_address_str s).toList = (normalize_address_str s).toList := by
    unfold stripEndSub
    rw [if_neg hL]
  have h3' : stripEndSub "usa".toList (normalize_address_str s).toList =
      (normalize_address_str s).toList := by
    unfold stripEndSub
    rw [if_neg h3]
  show String.mk (strip (stripEndSub "usa".toList
      (stripEndSub "united states of america".toList
        (collapse (strip ((normalize_address_str s).toList.map Char.toLower)))))) =
    normalize_address_str s
  rw [hmap, hstrip, hcol, hL', h3', hstrip]
  exact mk_toList _

theorem claim_C6_witness :
    normalize_address_str (normalize_address_str "123 Main St") =
      normalize_address_str "123 Main St" :=
  claim_C6 "123 Main St" (by decide) (by decide)

theorem claim_C3_witness :
    populate_field match_threshold (some (⟨"42", "acme", "", "u"⟩ : CorpData)) 1
      (fun d : CorpData => d.corporations_task_name) = "acme" :=
  (claim_C3 match_threshold 1 (fun d : CorpData => d.corporations_task_name)).2.1
    ⟨"42", "acme", "", "u"⟩ (by norm_num [match_threshold])

end PACS
